import Mathlib

/-!
Verification development for the SriAI voice-assistant repository.

The Python sources are shallowly embedded as Lean functions.  Text is
modelled as `String` / `List Char`; Python `str.lower`, `str.strip`,
`str.split`, `' '.join`, `str.split('.')`, slicing and substring tests are
translated character by character.  Stateful objects (`ElevenLabsTTS`,
`LocalTTS`, `PushToTalkListener`, conversation history) become explicit
state records threaded through the embedded methods; calls to external
services (the ElevenLabs HTTP API, the Google speech recognizer, the OpenAI
chat API, audio playback) become explicit outcome parameters, one per call.
Calendar days are abstracted to natural-number day indices.
-/

/-! ### Python string primitives -/

/-- The six ASCII whitespace characters recognised by Python's `str.split`,
`str.strip` and the regex class `\s`. -/
def isPyWs (c : Char) : Bool :=
  c = ' ' || c = '\t' || c = '\n' || c = '\r' || c = Char.ofNat 11 || c = Char.ofNat 12

/-- A `\w` word character (ASCII fragment): letter, digit or underscore. -/
def isWordChar (c : Char) : Bool :=
  c.isAlphanum || c = '_'

/-- Python `str.strip` on a character list: remove leading and trailing whitespace. -/
def pyStripL (l : List Char) : List Char :=
  ((l.dropWhile isPyWs).reverse.dropWhile isPyWs).reverse

/-- Python `str.strip` on strings. -/
def pyStrip (s : String) : String :=
  (pyStripL s.toList).asString

/-- Python `str.lower` (ASCII case folding, the fragment exercised here). -/
def lowerL (l : List Char) : List Char :=
  l.map Char.toLower

/-- Accumulator-passing core of Python's whitespace `str.split`: `acc` holds
the current word, reversed. -/
def pySplitWsAux : List Char → List Char → List (List Char)
  | acc, [] => if acc = [] then [] else [acc.reverse]
  | acc, c :: rest =>
    if isPyWs c then
      if acc = [] then pySplitWsAux [] rest else acc.reverse :: pySplitWsAux [] rest
    else pySplitWsAux (c :: acc) rest

/-- Python `str.split()` with no argument: split on whitespace runs,
discarding empty pieces. -/
def pySplitWs (l : List Char) : List (List Char) :=
  pySplitWsAux [] l

/-- Python `' '.join(pieces)`. -/
def joinSpace : List (List Char) → List Char
  | [] => []
  | [p] => p
  | p :: ps => p ++ ' ' :: joinSpace ps

/-- Python `text.split('.')`: split on every dot, keeping empty pieces. -/
def splitOnDot : List Char → List (List Char)
  | [] => [[]]
  | c :: rest =>
    if c = '.' then [] :: splitOnDot rest
    else
      match splitOnDot rest with
      | h :: t => (c :: h) :: t
      | [] => [[c]]

/-- Python's `needle in hay` substring test. -/
def containsSub : (hay : List Char) → (needle : List Char) → Bool
  | [], needle => needle = []
  | hay@(_ :: rest), needle => needle.isPrefixOf hay || containsSub rest needle

/-! ### ElevenLabsTTS (src/elevenlabs_tts.py) -/

/-- The `config["max_chars_per_request"]` constant. -/
def maxCharsPerRequest : Nat := 500

/-- The `config["daily_char_limit"]` constant. -/
def dailyCharLimit : Nat := 5000

/-- Mutable quota/availability state of an `ElevenLabsTTS` instance.
`last_reset_date` is `none` right after `__init__` sets it to `None`. -/
structure ElevenState where
  available : Bool
  daily_usage : Nat
  last_reset_date : Option Nat
deriving DecidableEq, Repr

/-- Embeds `ElevenLabsTTS._reset_daily_usage_if_needed`, with `date.today()` passed
in as the day index `today`. -/
def resetDailyUsageIfNeeded (st : ElevenState) (today : Nat) : ElevenState :=
  if st.last_reset_date ≠ some today then
    { st with daily_usage := 0, last_reset_date := some today }
  else st

/-- Embeds `ElevenLabsTTS._check_usage_limit`: reset the counter if the day rolled
over, then refuse when `daily_usage + text_length` would exceed the daily
limit.  Returns the verdict together with the (possibly reset) state. -/
def checkUsageLimit (st : ElevenState) (today : Nat) (textLength : Nat) :
    Bool × ElevenState :=
  let st' := resetDailyUsageIfNeeded st today
  if st'.daily_usage + textLength > dailyCharLimit then (false, st')
  else (true, st')

/-- Loop body of `_optimize_text`'s sentence accumulation:
`for sentence in sentences: if len(optimized + sentence + ".") <= max_chars:
optimized += sentence + "." else: break`. -/
def takeSentencesAux (maxc : Nat) : List (List Char) → List Char → List Char
  | [], acc => acc
  | s :: rest, acc =>
    if (acc ++ s ++ ['.']).length ≤ maxc then
      takeSentencesAux maxc rest (acc ++ (s ++ ['.']))
    else acc

/-- Embeds `ElevenLabsTTS._optimize_text` on a character list: collapse whitespace
via `' '.join(text.split())`; if the result exceeds
`max_chars_per_request`, keep whole `'.'`-terminated sentences while they
fit, and when not even the first sentence fits, hard-truncate to
`max_chars-3` characters plus `"..."`. -/
def optimizeTextL (text : List Char) : List Char :=
  let t := joinSpace (pySplitWs text)
  if t.length > maxCharsPerRequest then
    let optimized := takeSentencesAux maxCharsPerRequest (splitOnDot t) []
    if pyStripL optimized = [] then
      t.take (maxCharsPerRequest - 3) ++ "...".toList
    else optimized
  else t

/-- Embeds `ElevenLabsTTS._optimize_text` on strings. -/
def optimizeText (s : String) : String :=
  (optimizeTextL s.toList).asString

/-- Outcome of one `POST /text-to-speech` request: an HTTP status code
(200 delivers audio) or a raised exception. -/
inductive ApiOutcome where
  | response (status : Nat)
  | exn
deriving DecidableEq, Repr

/-- Embeds `ElevenLabsTTS._text_to_speech_api`: on HTTP 200 the audio is returned
and `daily_usage` grows by `len(text)`; on any other status (429 included)
or on an exception the method returns `None` and the state is untouched.
The first component is `true` iff audio was produced. -/
def textToSpeechApi (st : ElevenState) (text : String) : ApiOutcome → Bool × ElevenState
  | .response status =>
    if status = 200 then (true, { st with daily_usage := st.daily_usage + text.length })
    else (false, st)
  | .exn => (false, st)

/-- Embeds `ElevenLabsTTS.speak_async`: bail out if unavailable; optimize the text;
run the quota gate (which may reset the counter); skip the provider call
when the gate refuses; otherwise call the API and, on audio, play it
(`playbackOk` is `false` when the pygame playback block raises). -/
def speakAsync (st : ElevenState) (today : Nat) (text : String)
    (o : ApiOutcome) (playbackOk : Bool) : Bool × ElevenState :=
  if st.available = false then (false, st)
  else
    let opt := optimizeText text
    let gate := checkUsageLimit st today opt.length
    if gate.1 = false then (false, gate.2)
    else
      let api := textToSpeechApi gate.2 opt o
      if api.1 = false then (false, api.2)
      else (playbackOk, api.2)

/-! ### LocalTTS (src/local_tts.py) -/

/-- Mutable state of a `LocalTTS` instance. -/
structure LocalTTSState where
  available : Bool
  is_speaking : Bool
deriving DecidableEq, Repr

/-- Embeds `LocalTTS.speak`: refuse when unavailable or the text strips to empty;
refuse when an utterance is already being spoken; otherwise schedule
`_speak_async` and report successful initiation.  The boolean is exactly
the Python return value, and a task is created exactly when it is `true`. -/
def localSpeak (st : LocalTTSState) (text : String) : Bool × LocalTTSState :=
  if st.available = false || pyStrip text = "" then (false, st)
  else if st.is_speaking then (false, st)
  else (true, st)

/-- Body of `LocalTTS._speak_async` after it has set `is_speaking = True`:
whether or not the PowerShell subprocess raises (`subprocessOk`), the
`finally` block clears `is_speaking`. -/
def localSpeakAsyncBody (st : LocalTTSState) (_subprocessOk : Bool) : LocalTTSState :=
  { st with is_speaking := false }

/-- Composition of `speak` followed by the scheduled `_speak_async` run (when one was
scheduled), with the subprocess outcome made explicit. -/
def localSpeakRun (st : LocalTTSState) (text : String) (subprocessOk : Bool) :
    Bool × LocalTTSState :=
  let r := localSpeak st text
  if r.1 then (r.1, localSpeakAsyncBody { r.2 with is_speaking := true } subprocessOk)
  else r

/-- Modelled from the spec: the repository contains no code composing the
primary and fallback TTS backends (main.py's comment "Use ElevenLabs TTS
with Local TTS fallback" routes to `voice_handler.speak_text`, which never
touches `ElevenLabsTTS`; `VoiceHandler` holds no `elevenlabs_tts` field).
Spec §4.5: try primary synthesis; on a quota skip or any primary failure
fall through to the local fallback backend, whose success is terminal. -/
def overallSpeak (est : ElevenState) (today : Nat) (lst : LocalTTSState)
    (text : String) (o : ApiOutcome) (playbackOk : Bool) :
    Bool × ElevenState × LocalTTSState :=
  let p := speakAsync est today text o playbackOk
  if p.1 then (true, p.2, lst)
  else
    let f := localSpeak lst text
    (f.1, p.2, f.2)

/-! ### AIAssistant (src/ai_assistant.py) -/

/-- One entry of `AIAssistant.conversation_history` (the `timestamp` field
is never read by the embedded logic and is omitted). -/
structure HistEntry where
  user : String
  message : String
deriving DecidableEq, Repr

/-- The `direct_indicators` list of `AIAssistant.should_respond`. -/
def directIndicators : List String :=
  ["what", "how", "when", "where", "why", "who",
   "can you", "could you", "would you", "will you",
   "help", "please", "thanks", "thank you"]

/-- Embeds `AIAssistant.should_respond`: lowercase the message, respond when
`"sri"` occurs anywhere in it, or when it starts with one of the direct
indicators. -/
def shouldRespond (message : String) : Bool :=
  let ml := lowerL message.toList
  if containsSub ml "sri".toList then true
  else directIndicators.any (fun ind => ind.toList.isPrefixOf ml)

/-- Embeds `AIAssistant._get_fallback_response`: deterministic canned reply keyed
on substrings of the lowercased message. -/
def getFallbackResponse (message : String) : String :=
  let ml := lowerL message.toList
  if ["halo", "selamat", "hai", "hello"].any (fun w => containsSub ml w.toList) then
    "Halo Kak! Sri siap bantuin streaming hari ini!"
  else if ["bye", "udahan", "selesai"].any (fun w => containsSub ml w.toList) then
    "Dadah Kak! Terima kasih buat streaming hari ini! Sampai jumpa lagi ya!"
  else if containsSub ml "siap".toList && containsSub ml "sri".toList then
    "Siap banget, Kak! Sri udah excited nih buat bantuin streaming!"
  else if ["game", "main"].any (fun w => containsSub ml w.toList) then
    "Wah seru nih! Sri suka nonton Kakak main game!"
  else
    "Iya Kak! Sri di sini siap bantuin!"

/-- The rolling-window trim of `AIAssistant.process_message`
(`if len(self.conversation_history) > 10: self.conversation_history =
self.conversation_history[-10:]`). -/
def trimConversationHistory (h : List HistEntry) : List HistEntry :=
  if h.length > 10 then h.drop (h.length - 10) else h

/-- Outcome of the `client.chat.completions.create` call: a non-empty
reply, an empty choice list / empty content, or a raised exception. -/
inductive ChatOutcome where
  | ok (content : String)
  | empty
  | err
deriving DecidableEq, Repr

/-- Embeds `AIAssistant.process_message`, with the OpenAI call's outcome passed in.
`hasApiKey` / `hasModel` mirror the two guard clauses at the top.  The
game-mention detection only updates `current_game` / `game_start_time`,
which feed the prompt text and neither the history nor the decision to
reply, so it is not tracked here.  Returns the optional reply and the
updated `conversation_history`. -/
def processMessage (hasApiKey hasModel : Bool) (hist : List HistEntry)
    (message username : String) (api : ChatOutcome) :
    Option String × List HistEntry :=
  if hasApiKey = false then
    (some "Kak, aku belum dikonfigurasi dengan benar. Tolong cek API key-ku ya.", hist)
  else if hasModel = false then
    (some "Kak, ada masalah dengan model AI-ku. Tolong cek konfigurasi Gemini API.", hist)
  else if shouldRespond message = false then
    (none, hist ++ [⟨username, message⟩])
  else
    let hist2 := trimConversationHistory (hist ++ [⟨username, message⟩])
    match api with
    | .ok content => (some (pyStrip content), hist2)
    | .empty => (some (getFallbackResponse message), hist2)
    | .err => (some (getFallbackResponse message), hist2)

/-! ### JunAI history trim (src/JunAI.py, ask_chatgpt) -/

/-- One entry of a `user_histories` list in JunAI.py. -/
structure JunMsg where
  role : String
  content : String
deriving DecidableEq, Repr

/-- The length bound of `ask_chatgpt`:
`if len(chat_history) > 9: user_histories[user_id] = [chat_history[0]] +
chat_history[-8:]` — the first (system) message is pinned. -/
def junTrim (h : List JunMsg) : List JunMsg :=
  if h.length > 9 then h.take 1 ++ h.drop (h.length - 8) else h

/-- History effect of one `ask_chatgpt` call: append the user prompt and
the assistant reply, then apply the pinned trim. -/
def askChatgptHistory (h : List JunMsg) (prompt reply : String) : List JunMsg :=
  junTrim (h ++ [⟨"user", prompt⟩, ⟨"assistant", reply⟩])

/-! ### PushToTalkListener (src/push_to_talk.py) -/

/-- The `min_recording_duration` constant (seconds). -/
def minRecordingDuration : ℚ := 1/2

/-- The `max_recording_duration` constant (seconds). -/
def maxRecordingDuration : ℚ := 30

/-- The push-to-talk recording flag. -/
structure PTTState where
  is_recording : Bool
deriving DecidableEq, Repr

/-- What `PushToTalkListener._stop_recording` did. -/
inductive StopOutcome where
  | notRecording
  | ignoredTooShort
  | stopped
deriving DecidableEq, Repr

/-- Embeds `PushToTalkListener._stop_recording`, with the measured
`time.time() - recording_start_time` passed as `elapsed`.  Below the
minimum duration the recording is ignored; in both active branches
`is_recording` is cleared and the state callback is notified with `False`
(no payload). -/
def stopRecording (st : PTTState) (elapsed : ℚ) : PTTState × StopOutcome :=
  if st.is_recording = false then (st, .notRecording)
  else if elapsed < minRecordingDuration then ({ is_recording := false }, .ignoredTooShort)
  else ({ is_recording := false }, .stopped)

/-- Python `max(chunks, key=...)` over chunk sizes: the first maximum wins. -/
def pyMaxSize : List Nat → Nat
  | [] => 0
  | x :: xs => xs.foldl (fun best c => if c > best then c else best) x

/-- Post-loop decision of `PushToTalkListener._record_audio`: with the
captured chunks (modelled by their raw-data byte sizes) and the elapsed
duration measured when the loop exits, hand the largest chunk to
`_process_recorded_audio` only when something was captured and the
duration reached the minimum; otherwise discard everything. -/
def recordAudioResult (chunks : List Nat) (elapsed : ℚ) : Option Nat :=
  match chunks with
  | [] => none
  | _ :: _ =>
    if elapsed ≥ minRecordingDuration then some (pyMaxSize chunks) else none

/-- Python `str.replace(old, new)` core with fuel (fuel `≥` length of the text is
enough; the wrapper supplies it): every occurrence is replaced, scanning
left to right without rescanning the replacement. -/
def strReplaceAux (pat repl : List Char) : Nat → List Char → List Char
  | 0, s => s
  | _ + 1, [] => []
  | fuel + 1, s@(c :: rest) =>
    if pat ≠ [] ∧ pat.isPrefixOf s then
      repl ++ strReplaceAux pat repl fuel (s.drop pat.length)
    else c :: strReplaceAux pat repl fuel rest

/-- Python `str.replace(old, new)`. -/
def strReplace (s pat repl : List Char) : List Char :=
  strReplaceAux pat repl s.length s

/-- Embeds `PushToTalkListener._enhance_speech_text`: lowercase, strip, then apply
the fixed `str.replace` table of wake-word mis-recognitions in insertion
order. -/
def pttEnhanceSpeechText (text : String) : String :=
  let e := pyStripL (lowerL text.toList)
  let e := strReplace e "sry".toList "sri".toList
  let e := strReplace e "shri".toList "sri".toList
  let e := strReplace e "seri".toList "sri".toList
  let e := strReplace e "cri".toList "sri".toList
  let e := strReplace e "tree".toList "sri".toList
  let e := strReplace e "free".toList "sri".toList
  e.asString

/-- Embeds `PushToTalkListener._process_recorded_audio` for the selected chunk:
audio below 1000 bytes is dropped before any recognition; otherwise the
Indonesian recognizer is tried and, on `UnknownValueError`, the English
one; a recognized non-blank text is enhanced and handed to the callback.
Returns (recognizer invoked?, payload passed to the callback). -/
def processRecordedAudio (size : Nat) (recogId recogEn : Option String) :
    Bool × Option String :=
  if size < 1000 then (false, none)
  else
    match recogId with
    | some t => (true, if pyStrip t = "" then none else some (pttEnhanceSpeechText (pyStrip t)))
    | none =>
      match recogEn with
      | some t => (true, if pyStrip t = "" then none else some (pttEnhanceSpeechText (pyStrip t)))
      | none => (true, none)

/-- The whole post-recording pipeline of the recording thread: chunk
selection followed by `_process_recorded_audio`.  First component: was the
speech-recognition backend invoked; second: the text delivered to the
callback, if any. -/
def recordingOutcome (chunks : List Nat) (elapsed : ℚ)
    (recogId recogEn : Option String) : Bool × Option String :=
  match recordAudioResult chunks elapsed with
  | none => (false, none)
  | some size => processRecordedAudio size recogId recogEn

/-! ### LocalVoiceListener (src/local_voice_listener.py)

`_enhance_speech_text` uses `re.sub` on patterns of the restricted shape
`\bword\b` (optionally with a lookahead `(?=\s*(alt|...|alt))`) plus two
anchored greeting patterns.  Those regexes are embedded directly: a
word-bounded occurrence is one whose neighbouring characters (in the
original text) are absent or non-word, matching `\b` for patterns that
start and end with word characters, as all of these do.  The input is
lowercased before any pattern is applied, so the `re.IGNORECASE` flag adds
nothing for these all-lowercase patterns. -/

/-- Fuel-indexed scanner for `re.sub(r'\bPAT\b(?=LOOK)', repl, s)`: at each
position, if the previous original character is absent/non-word, `pat` is a
prefix, the character right after it is absent/non-word and the lookahead
accepts the remainder, emit `repl` and continue after the match; otherwise
keep the character.  Fuel `≥` length of the text makes it total. -/
def subWordAux (pat repl : List Char) (look : List Char → Bool) :
    Nat → Option Char → List Char → List Char
  | 0, _, s => s
  | _ + 1, _, [] => []
  | fuel + 1, prev, s@(c :: rest) =>
    if !pat.isEmpty && (prev.all fun p => !isWordChar p) && pat.isPrefixOf s
        && ((s.drop pat.length).head?.all fun a => !isWordChar a)
        && look (s.drop pat.length) then
      repl ++ subWordAux pat repl look fuel pat.getLast? (s.drop pat.length)
    else c :: subWordAux pat repl look fuel (some c) rest

/-- One `re.sub(variant, 'sri', enhanced_text)` pass of the
`sri_variants` loop. -/
def subSri (look : List Char → Bool) (pat : String) (s : List Char) : List Char :=
  subWordAux pat.toList "sri".toList look s.length none s

/-- The lookahead `(?=\s*(selamat|halo|hai|apa))` of the `sore`/`the`
variants. -/
def lookGreet (l : List Char) : Bool :=
  let r := l.dropWhile isPyWs
  ["selamat", "halo", "hai", "apa"].any (fun w => w.toList.isPrefixOf r)

/-- Embeds `re.sub(r'^(halo|hai|hello)\s+\w{1,3}\s*(selamat)', r'\1 sri \2', e)`:
an anchored match is a greeting word, a non-empty whitespace run, one to
three word characters (tried greedily), optional whitespace, then the
literal `selamat`; the matched span is rewritten to
`greeting ++ " sri selamat"` and the remainder is kept. -/
def greetPat1Apply (l : List Char) : List Char :=
  match ["halo", "hai", "hello"].find? (fun g => g.toList.isPrefixOf l) with
  | none => l
  | some g =>
    let rest1 := l.drop g.length
    let ws1 := rest1.takeWhile isPyWs
    if ws1 = [] then l
    else
      let rest2 := rest1.dropWhile isPyWs
      match [3, 2, 1].find? (fun k =>
          decide (k ≤ rest2.length) && (rest2.take k).all isWordChar &&
          "selamat".toList.isPrefixOf ((rest2.drop k).dropWhile isPyWs)) with
      | none => l
      | some k =>
        g.toList ++ " sri selamat".toList ++ ((rest2.drop k).dropWhile isPyWs).drop 7

/-- Match test for `^(selamat\s+(malam|pagi|siang|sore))$`; on a match the
whole string is group 1, so `re.sub(..., r'\1 sri', e)` appends `" sri"`. -/
def greetPat2Matches (l : List Char) : Bool :=
  "selamat".toList.isPrefixOf l &&
  (let r := l.drop 7
   !(r.takeWhile isPyWs).isEmpty &&
   (let w := r.dropWhile isPyWs
    ["malam", "pagi", "siang", "sore"].any (fun x => w = x.toList)))

/-- Embeds `re.sub(r'\s+', ' ', e)`: every whitespace run becomes one space. -/
def collapseRunsAux : Bool → List Char → List Char
  | _, [] => []
  | prevWs, c :: rest =>
    if isPyWs c then
      if prevWs then collapseRunsAux true rest else ' ' :: collapseRunsAux true rest
    else c :: collapseRunsAux false rest

/-- Embeds `re.sub(r'\s+', ' ', e)` from the initial (no pending run) state. -/
def collapseRuns (l : List Char) : List Char :=
  collapseRunsAux false l

/-- The `explicit_greetings` list. -/
def explicitGreetings : List String :=
  ["halo", "hai", "hello", "selamat malam", "selamat pagi",
   "selamat siang", "selamat sore", "hi", "hey"]

/-- Embeds `LocalVoiceListener._enhance_speech_text`: lowercase and strip, rewrite
the wake-word mis-recognition variants in order, apply the two conservative
greeting-pattern fixes, append `" sri"` to a standalone explicit greeting
that does not already mention the wake-word, and collapse whitespace. -/
def lvlEnhanceSpeechText (text : String) : String :=
  if text = "" then text
  else
    let e := pyStripL (lowerL text.toList)
    let e := subSri (fun _ => true) "seri" e
    let e := subSri (fun _ => true) "shri" e
    let e := subSri (fun _ => true) "sree" e
    let e := subSri (fun _ => true) "sri" e
    let e := subSri (fun _ => true) "tree" e
    let e := subSri (fun _ => true) "sea" e
    let e := subSri (fun _ => true) "see" e
    let e := subSri (fun _ => true) "free" e
    let e := subSri lookGreet "sore" e
    let e := subSri lookGreet "the" e
    let e := subSri (fun _ => true) "ser" e
    let e := subSri (fun _ => true) "sir" e
    let e := subSri (fun _ => true) "sri" e
    let e := greetPat1Apply e
    let e := if greetPat2Matches e then e ++ " sri".toList else e
    let e :=
      if (pySplitWs e).length ≤ 2 ∧ (pyStripL e).asString ∈ explicitGreetings ∧
          containsSub e "sri".toList = false then
        e ++ " sri".toList
      else e
    (pyStripL (collapseRuns e)).asString

/-! ## Supporting lemmas -/

theorem mem_of_getLastOpt {α : Type _} {l : List α} {x : α} (h : x ∈ l.getLast?) : x ∈ l := by
  obtain ⟨hne, rfl⟩ := List.mem_getLast?_eq_getLast h
  exact List.getLast_mem hne

theorem textToSpeechApi_fst_false_of_err (st : ElevenState) (t : String) (o : ApiOutcome)
    (herr : ∀ c, o = ApiOutcome.response c → c ≠ 200) :
    (textToSpeechApi st t o).1 = false := by
  cases o with
  | response c =>
    have hc : c ≠ 200 := herr c rfl
    simp [textToSpeechApi, hc]
  | exn => rfl

theorem speakAsync_fst_false_of_err (st : ElevenState) (today : Nat) (t : String)
    (o : ApiOutcome) (pb : Bool) (herr : ∀ c, o = ApiOutcome.response c → c ≠ 200) :
    (speakAsync st today t o pb).1 = false := by
  unfold speakAsync
  split
  · rfl
  · dsimp only
    split
    · rfl
    · rw [textToSpeechApi_fst_false_of_err _ _ _ herr]
      simp

/-! ## Claim theorems -/

/-- C8: the daily usage counter grows by the character count of the
synthesized text exactly when the provider call returns HTTP 200; on a 429,
on any other error status, and on a raised exception the quota state is
completely unchanged. -/
theorem usage_billed_iff_primary_success (st : ElevenState) (t : String) (o : ApiOutcome) :
    ((textToSpeechApi st t o).1 = true →
      o = ApiOutcome.response 200 ∧
      (textToSpeechApi st t o).2 = { st with daily_usage := st.daily_usage + t.length }) ∧
    ((textToSpeechApi st t o).1 = false → (textToSpeechApi st t o).2 = st) ∧
    textToSpeechApi st t (ApiOutcome.response 429) = (false, st) ∧
    textToSpeechApi st t ApiOutcome.exn = (false, st) := by
  refine ⟨?_, ?_, by simp [textToSpeechApi], rfl⟩ <;>
    · intro h
      cases o with
      | response c =>
        by_cases hc : c = 200 <;> simp_all [textToSpeechApi]
      | exn => simp_all [textToSpeechApi]

theorem usage_billed_iff_primary_success_witness :
    (textToSpeechApi ⟨true, 7, some 0⟩ "ab" (ApiOutcome.response 429)).2 = ⟨true, 7, some 0⟩ :=
  (usage_billed_iff_primary_success ⟨true, 7, some 0⟩ "ab" (ApiOutcome.response 429)).2.1
    (by decide)

/-- C2: when the primary provider replies with HTTP 429 or any other
non-200 status, or raises, the combined speak operation still reports
success whenever the local fallback backend is available and initiates
speech for the text. -/
theorem speak_true_on_fallback_after_primary_error (est : ElevenState) (today : Nat)
    (lst : LocalTTSState) (t : String) (o : ApiOutcome) (pb : Bool)
    (herr : ∀ c, o = ApiOutcome.response c → c ≠ 200)
    (_hav : lst.available = true)
    (hfb : (localSpeak lst t).1 = true) :
    (overallSpeak est today lst t o pb).1 = true := by
  have h1 := speakAsync_fst_false_of_err est today t o pb herr
  simp only [overallSpeak, h1]
  simpa using hfb

theorem speak_true_on_fallback_after_primary_error_witness :
    (overallSpeak ⟨true, 0, some 0⟩ 0 ⟨true, false⟩ "halo" (ApiOutcome.response 429) true).1
      = true :=
  speak_true_on_fallback_after_primary_error ⟨true, 0, some 0⟩ 0 ⟨true, false⟩ "halo"
    (ApiOutcome.response 429) true (by intro c hc; cases hc; decide) rfl (by decide)

/-- C10: the fallback backend's `speak` returns `False` (and schedules
nothing) when the text strips to empty, the backend is unavailable, or an
utterance is already in flight; and a `True` return only reports that the
asynchronous run was scheduled — it is the same whether the scheduled
synthesis subprocess later succeeds or fails, and the `finally` block
clears the speaking flag either way. -/
theorem local_speak_initiation_semantics (st : LocalTTSState) (t : String) :
    ((st.available = false ∨ pyStrip t = "" ∨ st.is_speaking = true) →
      localSpeak st t = (false, st)) ∧
    ((localSpeak st t).1 = true →
      st.available = true ∧ pyStrip t ≠ "" ∧ st.is_speaking = false) ∧
    (∀ ok1 ok2 : Bool, (localSpeakRun st t ok1).1 = (localSpeakRun st t ok2).1) ∧
    (∀ ok : Bool, (localSpeakRun st t ok).2.is_speaking = false ∨
      (localSpeakRun st t ok).2 = st) := by
  refine ⟨?_, ?_, ?_, ?_⟩
  · rintro (h | h | h) <;> simp [localSpeak, h]
  · intro h
    by_cases h1 : st.available = false <;>
      by_cases h2 : pyStrip t = "" <;>
        by_cases h3 : st.is_speaking <;>
          simp_all [localSpeak]
  · intro ok1 ok2
    by_cases h : (localSpeak st t).1 <;> simp [localSpeakRun, h]
  · intro ok
    by_cases h : (localSpeak st t).1 <;>
      simp [localSpeakRun, h, localSpeakAsyncBody]
    right
    by_cases h1 : st.available = false <;>
      by_cases h2 : pyStrip t = "" <;>
        by_cases h3 : st.is_speaking <;>
          simp_all [localSpeak]

theorem local_speak_initiation_semantics_witness :
    localSpeak ⟨true, true⟩ "halo" = (false, ⟨true, true⟩) :=
  (local_speak_initiation_semantics ⟨true, true⟩ "halo").1 (Or.inr (Or.inr rfl))

/-- The 200-character request of end-to-end scenario 4. -/
def scenario4Text : String := String.mk (List.replicate 200 'a')

set_option maxRecDepth 4000 in
/-- C1: the quota gate first resets the counter when the stored day differs
from today, then permits primary synthesis exactly when
`daily_usage + len(optimized) ≤ daily_char_limit`; with usage 4900 of the
5000 limit and a 200-character optimized text the gate refuses, the
provider is never called (the state is unchanged even when the API would
have answered 200), and the modelled dispatcher takes the fallback path,
which succeeds. -/
theorem quota_gate_resets_then_limits :
    (∀ (st : ElevenState) (today : Nat), st.last_reset_date ≠ some today →
      (resetDailyUsageIfNeeded st today).daily_usage = 0 ∧
      (resetDailyUsageIfNeeded st today).last_reset_date = some today) ∧
    (∀ (st : ElevenState) (today n : Nat),
      (checkUsageLimit st today n).2 = resetDailyUsageIfNeeded st today ∧
      ((checkUsageLimit st today n).1 = true ↔
        (resetDailyUsageIfNeeded st today).daily_usage + n ≤ dailyCharLimit)) ∧
    ((optimizeText scenario4Text).length = 200 ∧
     (checkUsageLimit ⟨true, 4900, some 0⟩ 0 (optimizeText scenario4Text).length).1 = false ∧
     speakAsync ⟨true, 4900, some 0⟩ 0 scenario4Text (ApiOutcome.response 200) true
       = (false, ⟨true, 4900, some 0⟩) ∧
     overallSpeak ⟨true, 4900, some 0⟩ 0 ⟨true, false⟩ scenario4Text
       (ApiOutcome.response 200) true = (true, ⟨true, 4900, some 0⟩, ⟨true, false⟩)) := by
  refine ⟨?_, ?_, by decide⟩
  · intro st today h
    simp [resetDailyUsageIfNeeded, h]
  · intro st today n
    constructor
    · unfold checkUsageLimit
      dsimp only
      split <;> rfl
    · unfold checkUsageLimit
      dsimp only
      split
      · next h =>
        constructor
        · intro hfalse
          simp at hfalse
        · intro hle
          exfalso
          unfold dailyCharLimit at h hle
          omega
      · next h =>
        constructor
        · intro _
          unfold dailyCharLimit at h ⊢
          omega
        · intro _
          rfl

theorem quota_gate_resets_then_limits_witness :
    (resetDailyUsageIfNeeded ⟨true, 4900, some 0⟩ 1).daily_usage = 0 ∧
    (resetDailyUsageIfNeeded ⟨true, 4900, some 0⟩ 1).last_reset_date = some 1 :=
  quota_gate_resets_then_limits.1 ⟨true, 4900, some 0⟩ 1 (by decide)

/-- C6: a text that does not mention the wake-word and does not start with
a direct-address indicator is not responded to, but `process_message`
still appends the turn to the conversation history (its length grows by
exactly one) and returns no reply. -/
theorem passive_turn_recorded_without_reply (t speaker : String)
    (hist : List HistEntry) (api : ChatOutcome)
    (h1 : containsSub (lowerL t.toList) "sri".toList = false)
    (h2 : ∀ ind ∈ directIndicators, ind.toList.isPrefixOf (lowerL t.toList) = false) :
    shouldRespond t = false ∧
    processMessage true true hist t speaker api = (none, hist ++ [⟨speaker, t⟩]) ∧
    (processMessage true true hist t speaker api).2.length = hist.length + 1 := by
  have hsr : shouldRespond t = false := by
    unfold shouldRespond
    dsimp only
    rw [h1]
    simp only [Bool.false_eq_true, if_false, List.any_eq_false]
    intro ind hind
    rw [h2 ind hind]
    simp
  have hpm : processMessage true true hist t speaker api = (none, hist ++ [⟨speaker, t⟩]) := by
    unfold processMessage
    rw [hsr]
    simp
  exact ⟨hsr, hpm, by rw [hpm]; simp⟩

theorem passive_turn_recorded_without_reply_witness :
    shouldRespond "mantap" = false ∧
    processMessage true true [] "mantap" "u" ChatOutcome.err = (none, [⟨"u", "mantap"⟩]) ∧
    (processMessage true true [] "mantap" "u" ChatOutcome.err).2.length = 0 + 1 :=
  passive_turn_recorded_without_reply "mantap" "u" [] ChatOutcome.err (by decide) (by decide)

/-- C5: the code violates the claim.  For a hold of 0.2 s (below the 0.5 s
minimum) the release handler does ignore the capture and return the
listener to idle — but `_record_audio` re-measures
`time.time() - recording_start_time` when its blocking `recognizer.listen`
call returns, not at key release.  With `pause_threshold = 2.0` and
`phrase_time_limit = 2` a captured chunk only returns about two seconds
after the press, so whenever any chunk exists the thread's own
`recording_duration >= min_recording_duration` check passes and the chunk
is processed: here, with loop-exit elapsed 2 s and one 9600-byte chunk,
the recognizer is invoked and the recognized text reaches the callback,
contradicting "issues no transcription call" for a sub-minimum hold. -/
theorem short_hold_still_transcribes :
    (1/5 : ℚ) < minRecordingDuration ∧
    stopRecording ⟨true⟩ (1/5) = (⟨false⟩, StopOutcome.ignoredTooShort) ∧
    recordingOutcome [9600] 2 (some "halo") none = (true, some "halo") := by
  refine ⟨by norm_num [minRecordingDuration], ?_, ?_⟩
  · unfold stopRecording
    rw [if_neg (by simp), if_pos (by norm_num [minRecordingDuration])]
  · unfold recordingOutcome recordAudioResult
    rw [if_pos (by norm_num [minRecordingDuration])]
    rfl

/-- A history of ten entries whose first element is the persona/system
entry, as accumulated before an eleventh (responding) turn arrives. -/
def cexHistory : List HistEntry :=
  [⟨"System", "persona"⟩, ⟨"u", "m1"⟩, ⟨"u", "m2"⟩, ⟨"u", "m3"⟩, ⟨"u", "m4"⟩,
   ⟨"u", "m5"⟩, ⟨"u", "m6"⟩, ⟨"u", "m7"⟩, ⟨"u", "m8"⟩, ⟨"u", "m9"⟩]

/-- C4 counterexample: `AIAssistant.process_message` trims by keeping only
the last ten entries; when a system entry sits at the head of a ten-entry
history and a responding turn is appended, the system entry is evicted by
the trim, so the pinning stated in the claim fails on this code. -/
theorem history_trim_evicts_pinned_system_entry :
    cexHistory.head? = some ⟨"System", "persona"⟩ ∧
    cexHistory.length = 10 ∧
    (processMessage true true cexHistory "sri halo" "u" (ChatOutcome.ok "ok")).2.length = 10 ∧
    ⟨"System", "persona"⟩ ∉ (processMessage true true cexHistory "sri halo" "u"
      (ChatOutcome.ok "ok")).2 := by
  refine ⟨rfl, rfl, ?_, ?_⟩ <;> decide

/-- C4 amended: the `ai_assistant.py` trim caps the history at exactly ten
entries but keeps a suffix (the most recent entries) with no pinning, so
the head can be evicted; the `JunAI.py` trim is the one that pins: past
nine entries it keeps exactly nine — the unchanged first (system) entry
plus the last eight. -/
theorem history_trims_amended :
    (∀ h : List HistEntry, h.length > 10 →
      (trimConversationHistory h).length = 10 ∧
      trimConversationHistory h = h.drop (h.length - 10) ∧
      trimConversationHistory h <:+ h) ∧
    (∀ g : List JunMsg, g.length > 9 →
      (junTrim g).length = 9 ∧
      (junTrim g).head? = g.head? ∧
      junTrim g = g.take 1 ++ g.drop (g.length - 8)) := by
  constructor
  · intro h hlen
    unfold trimConversationHistory
    rw [if_pos hlen]
    refine ⟨?_, rfl, List.drop_suffix _ _⟩
    rw [List.length_drop]
    omega
  · intro g hlen
    unfold junTrim
    rw [if_pos hlen]
    refine ⟨?_, ?_, rfl⟩
    · simp only [List.length_append, List.length_take, List.length_drop]
      omega
    · cases g with
      | nil => simp at hlen
      | cons a rest => simp

theorem history_trims_amended_witness :
    (trimConversationHistory (List.replicate 11 ⟨"u", "m"⟩)).length = 10 ∧
    (junTrim (List.replicate 10 ⟨"system", "s"⟩)).head? =
      (List.replicate 10 (⟨"system", "s"⟩ : JunMsg)).head? :=
  ⟨(history_trims_amended.1 (List.replicate 11 ⟨"u", "m"⟩) (by simp)).1,
   (history_trims_amended.2 (List.replicate 10 ⟨"system", "s"⟩) (by simp)).2.1⟩

/-- C9: the ambient listener's enhancement rewrites the standalone
recognized greeting `"halo"` to `"halo sri"`, and `should_respond` accepts
the enhanced text, so the utterance is escalated to reply generation. -/
theorem standalone_greeting_gains_wake_word :
    lvlEnhanceSpeechText "halo" = "halo sri" ∧ shouldRespond "halo sri" = true := by
  constructor <;> decide

/-! ## Lemmas about whitespace collapsing (`' '.join(text.split())`) -/

theorem pySplitWsAux_pieces (l : List Char) :
    ∀ acc : List Char, (∀ c ∈ acc, isPyWs c = false) →
      ∀ p ∈ pySplitWsAux acc l, p ≠ [] ∧ ∀ c ∈ p, isPyWs c = false := by
  induction l with
  | nil =>
    intro acc hacc p hp
    unfold pySplitWsAux at hp
    by_cases h : acc = []
    · simp [h] at hp
    · simp [h] at hp
      subst hp
      refine ⟨by simpa using h, ?_⟩
      intro c hc
      exact hacc c (List.mem_reverse.mp hc)
  | cons c rest ih =>
    intro acc hacc p hp
    unfold pySplitWsAux at hp
    by_cases hws : isPyWs c
    · rw [if_pos hws] at hp
      by_cases h : acc = []
      · rw [if_pos h] at hp
        exact ih [] (by simp) p hp
      · rw [if_neg h] at hp
        rcases List.mem_cons.mp hp with hp | hp
        · subst hp
          refine ⟨by simpa using h, ?_⟩
          intro x hx
          exact hacc x (List.mem_reverse.mp hx)
        · exact ih [] (by simp) p hp
    · rw [if_neg hws] at hp
      refine ih (c :: acc) ?_ p hp
      intro x hx
      rcases List.mem_cons.mp hx with hx | hx
      · subst hx
        simpa using hws
      · exact hacc x hx

theorem pySplitWs_pieces (l : List Char) :
    ∀ p ∈ pySplitWs l, p ≠ [] ∧ ∀ c ∈ p, isPyWs c = false :=
  fun p hp => pySplitWsAux_pieces l [] (by simp) p hp

theorem joinSpace_cons_cons (p q : List Char) (ps : List (List Char)) :
    joinSpace (p :: q :: ps) = p ++ ' ' :: joinSpace (q :: ps) := rfl

theorem joinSpace_cons_head (q : List Char) (ps : List (List Char)) :
    ∃ rest, joinSpace (q :: ps) = q ++ rest := by
  cases ps with
  | nil => exact ⟨[], by simp [joinSpace]⟩
  | cons r rs => exact ⟨' ' :: joinSpace (r :: rs), rfl⟩

theorem mem_joinSpace {c : Char} :
    ∀ {ps : List (List Char)}, c ∈ joinSpace ps → (∃ p ∈ ps, c ∈ p) ∨ c = ' '
  | [], h => by simp [joinSpace] at h
  | [p], h => Or.inl ⟨p, by simp, by simpa [joinSpace] using h⟩
  | p :: q :: ps, h => by
    rw [joinSpace_cons_cons] at h
    rcases List.mem_append.mp h with h | h
    · exact Or.inl ⟨p, by simp, h⟩
    · rcases List.mem_cons.mp h with h | h
      · exact Or.inr h
      · rcases mem_joinSpace h with ⟨r, hr, hc⟩ | h
        · exact Or.inl ⟨r, List.mem_cons_of_mem _ hr, hc⟩
        · exact Or.inr h

theorem chain'_of_all_not_ws (p : List Char)
    (hp : ∀ c ∈ p, isPyWs c = false) :
    List.Chain' (fun a b => isPyWs a = false ∨ isPyWs b = false) p := by
  induction p with
  | nil => exact List.chain'_nil
  | cons a t ih =>
    rw [List.chain'_cons']
    refine ⟨fun y _ => Or.inl (hp a (by simp)), ih ?_⟩
    intro c hc
    exact hp c (List.mem_cons_of_mem _ hc)

theorem chain'_joinSpace :
    ∀ ps : List (List Char),
      (∀ p ∈ ps, p ≠ [] ∧ ∀ c ∈ p, isPyWs c = false) →
      List.Chain' (fun a b => isPyWs a = false ∨ isPyWs b = false) (joinSpace ps)
  | [], _ => List.chain'_nil
  | [p], h => chain'_of_all_not_ws p (h p (by simp)).2
  | p :: q :: ps, h => by
    rw [joinSpace_cons_cons, List.chain'_append]
    refine ⟨chain'_of_all_not_ws p (h p (by simp)).2, ?_, ?_⟩
    · rw [List.chain'_cons']
      refine ⟨?_, chain'_joinSpace (q :: ps) ?_⟩
      · intro y hy
        obtain ⟨rest, hrest⟩ := joinSpace_cons_head q ps
        obtain ⟨hqne, hqws⟩ := h q (by simp)
        cases hq : q with
        | nil => exact absurd hq hqne
        | cons q0 qt =>
          rw [hrest, hq] at hy
          simp at hy
          subst hy
          exact Or.inr (hqws q0 (by simp [hq]))
      · intro r hr
        exact h r (List.mem_cons_of_mem _ hr)
    · intro x hx y hy
      exact Or.inl ((h p (by simp)).2 x (mem_of_getLastOpt hx))

/-! ## Lemmas about sentence-boundary truncation -/

/-- Rebuilding `text.split('.')` pieces the way the optimization loop does:
each consumed piece contributes itself plus a closing dot. -/
def joinEach (ps : List (List Char)) : List Char :=
  (ps.map (fun p => p ++ ['.'])).flatten

theorem joinEach_nil : joinEach [] = [] := rfl

theorem joinEach_cons (p : List Char) (ps : List (List Char)) :
    joinEach (p :: ps) = (p ++ ['.']) ++ joinEach ps := rfl

theorem joinEach_append (a b : List (List Char)) :
    joinEach (a ++ b) = joinEach a ++ joinEach b := by
  unfold joinEach
  rw [List.map_append, List.flatten_append]

theorem splitOnDot_ne_nil (l : List Char) : splitOnDot l ≠ [] := by
  cases l with
  | nil => simp [splitOnDot]
  | cons c rest =>
    unfold splitOnDot
    split
    · simp
    · split
      · simp
      · simp

theorem joinEach_splitOnDot (l : List Char) :
    joinEach (splitOnDot l) = l ++ ['.'] := by
  induction l with
  | nil => rfl
  | cons c rest ih =>
    unfold splitOnDot
    by_cases hc : c = '.'
    · rw [if_pos hc, joinEach_cons, hc]
      simpa using ih
    · rw [if_neg hc]
      cases hsp : splitOnDot rest with
      | nil => exact absurd hsp (splitOnDot_ne_nil rest)
      | cons h t =>
        rw [joinEach_cons]
        have : joinEach (h :: t) = rest ++ ['.'] := by rw [← hsp]; exact ih
        rw [joinEach_cons] at this
        simp only [List.cons_append, List.append_assoc] at this ⊢
        rw [this]

theorem joinEach_ends_dot :
    ∀ ps : List (List Char), ps ≠ [] → ∃ l, joinEach ps = l ++ ['.']
  | [], h => absurd rfl h
  | [p], _ => ⟨p, by simp [joinEach]⟩
  | p :: q :: ps, _ => by
    obtain ⟨l, hl⟩ := joinEach_ends_dot (q :: ps) (by simp)
    refine ⟨p ++ ['.'] ++ l, ?_⟩
    rw [joinEach_cons, hl]
    simp

theorem joinEach_length_pos (ps : List (List Char)) (h : ps ≠ []) :
    1 ≤ (joinEach ps).length := by
  obtain ⟨l, hl⟩ := joinEach_ends_dot ps h
  rw [hl]
  simp

theorem takeSentencesAux_structure (maxc : Nat) :
    ∀ (ps : List (List Char)) (acc : List Char),
      ∃ k ≤ ps.length, takeSentencesAux maxc ps acc = acc ++ joinEach (ps.take k)
  | [], acc => ⟨0, Nat.le_refl 0, by simp [takeSentencesAux, joinEach_nil]⟩
  | s :: rest, acc => by
    unfold takeSentencesAux
    split
    · obtain ⟨k, hk, hres⟩ := takeSentencesAux_structure maxc rest (acc ++ (s ++ ['.']))
      refine ⟨k + 1, by simpa using hk, ?_⟩
      rw [hres, List.take_succ_cons, joinEach_cons]
      simp [List.append_assoc]
    · exact ⟨0, Nat.zero_le _, by simp [joinEach_nil]⟩

theorem takeSentencesAux_length_le (maxc : Nat) :
    ∀ (ps : List (List Char)) (acc : List Char), acc.length ≤ maxc →
      (takeSentencesAux maxc ps acc).length ≤ maxc
  | [], acc, h => h
  | s :: rest, acc, h => by
    unfold takeSentencesAux
    split
    · next hfit =>
      exact takeSentencesAux_length_le maxc rest (acc ++ (s ++ ['.']))
        (by simpa [List.append_assoc] using hfit)
    · exact h

theorem optimizeTextL_short (tl : List Char)
    (h : (joinSpace (pySplitWs tl)).length ≤ maxCharsPerRequest) :
    optimizeTextL tl = joinSpace (pySplitWs tl) := by
  unfold optimizeTextL
  dsimp only
  rw [if_neg (Nat.not_lt.mpr h)]

theorem splitOnDot_head (l : List Char) :
    ∃ ps, splitOnDot l = l.takeWhile (fun x => x != '.') :: ps := by
  induction l with
  | nil => exact ⟨[], rfl⟩
  | cons c rest ih =>
    by_cases hc : c = '.'
    · refine ⟨splitOnDot rest, ?_⟩
      subst hc
      simp [splitOnDot, List.takeWhile_cons]
    · obtain ⟨ps, hps⟩ := ih
      refine ⟨ps, ?_⟩
      simp only [splitOnDot]
      rw [if_neg hc, hps]
      simp [List.takeWhile_cons, hc]

theorem takeWhile_neDot_length_le :
    ∀ (p c : List Char), p ++ ['.'] <+: c →
      (c.takeWhile (fun x => x != '.')).length ≤ p.length
  | [], c, h => by
    obtain ⟨t, ht⟩ := h
    rw [List.nil_append] at ht
    rw [← ht]
    simp [List.takeWhile_cons]
  | a :: p, c, h => by
    obtain ⟨t, ht⟩ := h
    rw [← ht, List.cons_append, List.cons_append]
    by_cases ha : a = '.'
    · simp [List.takeWhile_cons, ha]
    · rw [List.takeWhile_cons]
      simp only [ha, bne_iff_ne, ne_eq, not_false_eq_true, if_pos, List.length_cons]
      have := takeWhile_neDot_length_le p (p ++ ['.'] ++ t) ⟨t, by simp⟩
      simpa using this

theorem takeWhile_neDot_cases (c : List Char) :
    c.takeWhile (fun x => x != '.') = c ∨
    (c.takeWhile (fun x => x != '.')) ++ ['.'] <+: c := by
  induction c with
  | nil => exact Or.inl rfl
  | cons a t ih =>
    by_cases ha : a = '.'
    · right
      subst ha
      simp only [List.takeWhile_cons, bne_self_eq_false, if_false]
      exact ⟨t, rfl⟩
    · rcases ih with ih | ih
      · left
        simp [List.takeWhile_cons, ha, ih]
      · right
        rw [List.takeWhile_cons]
        simp only [ha, bne_iff_ne, ne_eq, not_false_eq_true, if_pos, List.cons_append]
        exact List.cons_prefix_cons.mpr ⟨rfl, ih⟩

theorem takeSentencesAux_first_fits (maxc : Nat) (s : List Char)
    (rest : List (List Char)) (acc : List Char)
    (h : (acc ++ s ++ ['.']).length ≤ maxc) :
    ∃ tail, takeSentencesAux maxc (s :: rest) acc = (acc ++ (s ++ ['.'])) ++ tail := by
  unfold takeSentencesAux
  rw [if_pos h]
  obtain ⟨k, _, hres⟩ := takeSentencesAux_structure maxc rest (acc ++ (s ++ ['.']))
  exact ⟨joinEach (rest.take k), hres⟩

theorem pyStripL_ne_nil_of_mem {x : Char} {l : List Char}
    (hx : x ∈ l) (hnw : isPyWs x = false) : pyStripL l ≠ [] := by
  intro h0
  unfold pyStripL at h0
  rw [List.reverse_eq_nil_iff, List.dropWhile_eq_nil_iff] at h0
  have hall : ∀ y ∈ l.dropWhile isPyWs, isPyWs y = true := by
    intro y hy
    exact h0 y (List.mem_reverse.mpr hy)
  have hsplit := List.takeWhile_append_dropWhile (p := isPyWs) (l := l)
  rw [← hsplit] at hx
  rcases List.mem_append.mp hx with hx | hx
  · have hw := List.mem_takeWhile_imp hx
    rw [hnw] at hw
    cases hw
  · have hw := hall x hx
    rw [hnw] at hw
    cases hw

theorem takeSentences_prefix_spec (c : List Char)
    (hgt : maxCharsPerRequest < c.length)
    (hne : takeSentencesAux maxCharsPerRequest (splitOnDot c) [] ≠ []) :
    takeSentencesAux maxCharsPerRequest (splitOnDot c) [] <+: c ∧
    ∃ l, takeSentencesAux maxCharsPerRequest (splitOnDot c) [] = l ++ ['.'] := by
  obtain ⟨k, hk, hres⟩ :=
    takeSentencesAux_structure maxCharsPerRequest (splitOnDot c) []
  rw [List.nil_append] at hres
  have hlen : (takeSentencesAux maxCharsPerRequest (splitOnDot c) []).length
      ≤ maxCharsPerRequest :=
    takeSentencesAux_length_le maxCharsPerRequest (splitOnDot c) [] (by simp)
  have hkpos : k ≠ 0 := by
    intro h0
    rw [h0, List.take_zero, joinEach_nil] at hres
    exact hne hres
  have hklt : k < (splitOnDot c).length := by
    rcases Nat.lt_or_ge k (splitOnDot c).length with h | h
    · exact h
    · exfalso
      have hkeq : k = (splitOnDot c).length := Nat.le_antisymm hk h
      rw [hkeq, List.take_length, joinEach_splitOnDot] at hres
      have hL : (takeSentencesAux maxCharsPerRequest (splitOnDot c) []).length
          = c.length + 1 := by
        rw [hres]
        simp
      omega
  have hdecomp : takeSentencesAux maxCharsPerRequest (splitOnDot c) [] ++
      joinEach ((splitOnDot c).drop k) = c ++ ['.'] := by
    rw [hres, ← joinEach_append, List.take_append_drop, joinEach_splitOnDot]
  have hdropne : (splitOnDot c).drop k ≠ [] := by
    intro h0
    rw [List.drop_eq_nil_iff] at h0
    omega
  have hrest1 : 1 ≤ (joinEach ((splitOnDot c).drop k)).length :=
    joinEach_length_pos _ hdropne
  have hoptlen : (takeSentencesAux maxCharsPerRequest (splitOnDot c) []).length
      ≤ c.length := by
    have hlens := congrArg List.length hdecomp
    simp only [List.length_append, List.length_cons, List.length_nil] at hlens
    omega
  constructor
  · have hpre : takeSentencesAux maxCharsPerRequest (splitOnDot c) [] <+: c ++ ['.'] :=
      ⟨joinEach ((splitOnDot c).drop k), hdecomp⟩
    rw [ List.prefix_iff_eq_take] at hpre
    rw [List.take_append_eq_append_take, Nat.sub_eq_zero_of_le hoptlen,
      List.take_zero, List.append_nil] at hpre
    rw [hpre]
    exact List.take_prefix _ _
  · have htkne : (splitOnDot c).take k ≠ [] := by
      cases hsp : splitOnDot c with
      | nil => exact absurd hsp (splitOnDot_ne_nil c)
      | cons a l =>
        cases k with
        | zero => exact absurd rfl hkpos
        | succ k => simp
    obtain ⟨l, hl⟩ := joinEach_ends_dot _ htkne
    exact ⟨l, by rw [hres, hl]⟩

theorem optimizeTextL_long (tl : List Char)
    (hgt : maxCharsPerRequest < (joinSpace (pySplitWs tl)).length) :
    (optimizeTextL tl).length ≤ maxCharsPerRequest ∧
    ((∃ p, p ++ ['.'] <+: joinSpace (pySplitWs tl) ∧
        (p ++ ['.']).length ≤ maxCharsPerRequest) →
      optimizeTextL tl <+: joinSpace (pySplitWs tl) ∧
      ∃ l, optimizeTextL tl = l ++ ['.']) ∧
    ((¬ ∃ p, p ++ ['.'] <+: joinSpace (pySplitWs tl) ∧
        (p ++ ['.']).length ≤ maxCharsPerRequest) →
      optimizeTextL tl =
        (joinSpace (pySplitWs tl)).take (maxCharsPerRequest - 3) ++ "...".toList) := by
  unfold optimizeTextL
  dsimp only
  rw [if_pos hgt]
  generalize hcdef : joinSpace (pySplitWs tl) = c at hgt ⊢
  have hlen : (takeSentencesAux maxCharsPerRequest (splitOnDot c) []).length
      ≤ maxCharsPerRequest :=
    takeSentencesAux_length_le maxCharsPerRequest (splitOnDot c) [] (by simp)
  obtain ⟨ps, hps⟩ := splitOnDot_head c
  refine ⟨?_, ?_, ?_⟩
  · split
    · rw [List.length_append, List.length_take]
      have h3 : ("...".toList).length = 3 := rfl
      rw [h3]
      unfold maxCharsPerRequest at hgt ⊢
      omega
    · exact hlen
  · rintro ⟨p, hpre, hple⟩
    have hs0len : (c.takeWhile (fun x => x != '.')).length ≤ p.length :=
      takeWhile_neDot_length_le p c hpre
    have hfit : (([] : List Char) ++ c.takeWhile (fun x => x != '.') ++ ['.']).length
        ≤ maxCharsPerRequest := by
      simp only [List.nil_append, List.length_append, List.length_cons,
        List.length_nil] at hple ⊢
      omega
    obtain ⟨tail, htail⟩ := takeSentencesAux_first_fits maxCharsPerRequest
      (c.takeWhile (fun x => x != '.')) ps [] hfit
    have hne : takeSentencesAux maxCharsPerRequest (splitOnDot c) [] ≠ [] := by
      rw [hps, htail]
      intro h0
      have := congrArg List.length h0
      simp at this
    have hstrip : pyStripL (takeSentencesAux maxCharsPerRequest (splitOnDot c) []) ≠ [] := by
      rw [hps, htail]
      refine pyStripL_ne_nil_of_mem (x := '.') ?_ (by decide)
      simp
    rw [if_neg hstrip]
    exact takeSentences_prefix_spec c hgt hne
  · intro hno
    have hnotfit : ¬ (([] : List Char) ++ c.takeWhile (fun x => x != '.') ++ ['.']).length
        ≤ maxCharsPerRequest := by
      intro hfit
      rcases takeWhile_neDot_cases c with hcase | hcase
      · rw [hcase] at hfit
        simp only [List.nil_append, List.length_append, List.length_cons,
          List.length_nil] at hfit
        omega
      · apply hno
        refine ⟨c.takeWhile (fun x => x != '.'), hcase, ?_⟩
        simpa using hfit
    have hopt0 : takeSentencesAux maxCharsPerRequest (splitOnDot c) [] = [] := by
      rw [hps]
      unfold takeSentencesAux
      rw [if_neg hnotfit]
    rw [if_pos (by rw [hopt0]; rfl)]

/-- C7: `_optimize_text` first collapses whitespace runs to single spaces
(afterwards every whitespace character is a plain space and no two
whitespace characters are adjacent); a collapsed text within the
per-request bound is returned unchanged; a longer text yields a result of
at most the bound, and the sentence boundary is preferred: whenever some
complete `'.'`-terminated sentence prefix of the collapsed text fits
within the bound, the result is a prefix of whole sentences ending at a
`'.'` boundary, and only when no complete sentence fits is it the hard
truncation — the first `bound - 3` characters followed by the `"..."`
ellipsis marker. -/
theorem optimize_text_specification (t : String) :
    (∀ x ∈ joinSpace (pySplitWs t.toList), isPyWs x = true → x = ' ') ∧
    List.Chain' (fun a b => isPyWs a = false ∨ isPyWs b = false)
      (joinSpace (pySplitWs t.toList)) ∧
    ((joinSpace (pySplitWs t.toList)).length ≤ maxCharsPerRequest →
      optimizeTextL t.toList = joinSpace (pySplitWs t.toList)) ∧
    (maxCharsPerRequest < (joinSpace (pySplitWs t.toList)).length →
      (optimizeTextL t.toList).length ≤ maxCharsPerRequest ∧
      ((∃ p, p ++ ['.'] <+: joinSpace (pySplitWs t.toList) ∧
          (p ++ ['.']).length ≤ maxCharsPerRequest) →
        optimizeTextL t.toList <+: joinSpace (pySplitWs t.toList) ∧
        ∃ l, optimizeTextL t.toList = l ++ ['.']) ∧
      ((¬ ∃ p, p ++ ['.'] <+: joinSpace (pySplitWs t.toList) ∧
          (p ++ ['.']).length ≤ maxCharsPerRequest) →
        optimizeTextL t.toList =
          (joinSpace (pySplitWs t.toList)).take (maxCharsPerRequest - 3) ++
            "...".toList)) := by
  refine ⟨?_, chain'_joinSpace _ (pySplitWs_pieces t.toList),
    optimizeTextL_short t.toList, optimizeTextL_long t.toList⟩
  intro x hx hwx
  rcases mem_joinSpace hx with ⟨p, hp, hxp⟩ | hsp
  · have hnw := (pySplitWs_pieces t.toList p hp).2 x hxp
    rw [hnw] at hwx
    cases hwx
  · exact hsp

/-- A collapsed 513-character text whose first sentence (`"ab."`) fits
well within the per-request bound. -/
def longSentenceText : String := "ab." ++ String.mk (List.replicate 510 'c')

set_option maxRecDepth 16000 in
theorem optimize_text_specification_witness :
    (optimizeTextL "a  b".toList = joinSpace (pySplitWs "a  b".toList) ∧
     joinSpace (pySplitWs "a  b".toList) = "a b".toList) ∧
    (optimizeTextL longSentenceText.toList <+:
       joinSpace (pySplitWs longSentenceText.toList) ∧
     ∃ l, optimizeTextL longSentenceText.toList = l ++ ['.']) :=
  ⟨⟨(optimize_text_specification "a  b").2.2.1 (by decide), by decide⟩,
   ((optimize_text_specification longSentenceText).2.2.2 (by decide)).2.1
     ⟨"ab".toList, by decide, by decide⟩⟩
